import Mathlib

/-!
Verification of the omakase-app repository against its natural-language
specification.

The development shallowly embeds the parts of the source the claims are
about:

* the Cloudflare worker's D1-backed dish-knowledge store and scan-record
  store (`worker/src/index.ts`, `handleInternal`): the `dish_knowledge`
  merge-upsert SQL, the fetch query and the `scan_records` insert;
* the mobile client's session store (`mobile/lib/store.ts`:
  `setMenuItems`, `updateItemImage`) and its two SSE consumers
  (`mobile/lib/api.ts` `startScan`, and the resumable `streamJobEvents`);
* the server-side Event Log read and job pipeline, which are not part of
  this repository (the Cloud Run backend is external); those are modelled
  from the spec where a claim needs them.
-/

/-! ## Dish-knowledge store (worker/src/index.ts) -/

/-- A row of the `dish_knowledge` D1 table, as created by `ensureSchema`:
`(dish_key, language)` is the primary key; `tags` holds JSON text whose
empty value is the literal `[]`. -/
structure DishRow where
  dish_key : String
  language : String
  translated_name : String
  description : String
  tags : String
  romanji : String
  seen_count : Nat
  last_seen_at : String
  source_scan_id : String
deriving DecidableEq

/-- JS `String.prototype.trim`: strip whitespace from both ends,
modelled executably over the character list. -/
def trimStr (s : String) : String :=
  String.mk (((s.data.dropWhile Char.isWhitespace).reverse.dropWhile
    Char.isWhitespace).reverse)

/-- Primary-key match of a row against `(k, lang)`. -/
def keyMatch (k lang : String) (r : DishRow) : Bool :=
  r.dish_key == k && r.language == lang

/-- Lookup of the row with primary key `(k, lang)`. -/
def findRow (db : List DishRow) (k lang : String) : Option DishRow :=
  db.find? (keyMatch k lang)

/-- The `ON CONFLICT(dish_key, language) DO UPDATE SET` arm of the
upsert statement in the `/internal/dish_knowledge/upsert_many` handler:
each text field is kept unless the stored value is empty (`''`, and `'[]'`
for `tags`), `seen_count` is incremented, `last_seen_at` is set to the
current time, and `source_scan_id` takes the excluded value unless that
value is empty. -/
def mergeDishRow (old : DishRow) (tn d tg rj sid now : String) : DishRow :=
  { old with
    translated_name := if old.translated_name = "" then tn else old.translated_name
    description := if old.description = "" then d else old.description
    tags := if old.tags = "[]" then tg else old.tags
    romanji := if old.romanji = "" then rj else old.romanji
    seen_count := old.seen_count + 1
    last_seen_at := now
    source_scan_id := if sid = "" then old.source_scan_id else sid }

/-- One execution of the bound upsert statement: `INSERT` a fresh row with
`seen_count = 1` when no row conflicts on the primary key, otherwise apply
the `DO UPDATE SET` merge to the conflicting row. -/
def upsertDishRow (db : List DishRow) (k lang tn d tg rj sid now : String) :
    List DishRow :=
  match findRow db k lang with
  | none => db ++ [⟨k, lang, tn, d, tg, rj, 1, now, sid⟩]
  | some _ =>
      db.map fun r => if keyMatch k lang r then mergeDishRow r tn d tg rj sid now else r

/-- `JSON.stringify` of a list of tag strings, as bound to the `tags`
column; the empty list serializes to `[]`. -/
def tagsToJson (l : List String) : String :=
  "[" ++ String.intercalate "," (l.map fun t => "\"" ++ t ++ "\"") ++ "]"

/-- An incoming row of the `/internal/dish_knowledge/upsert_many` request
body, after the handler's `typeof`-defaults. -/
structure UpsertRow where
  dish_key : String
  translated_name : String
  description : String
  tags : List String
  romanji : String
deriving DecidableEq

/-- The loop body of the `/internal/dish_knowledge/upsert_many` handler:
a row with an empty trimmed `dish_key` is skipped, any other row is bound
into the upsert statement (tags filtered to nonempty strings and
serialized). -/
def upsertStep (language source_scan_id now : String) (acc : List DishRow)
    (r : UpsertRow) : List DishRow :=
  if trimStr r.dish_key = "" then acc
  else
    upsertDishRow acc (trimStr r.dish_key) language r.translated_name r.description
      (tagsToJson (r.tags.filter fun t => trimStr t != "")) r.romanji source_scan_id now

/-- The `/internal/dish_knowledge/upsert_many` handler: no-op on an empty
language or empty row list; otherwise the batch of upsert statements runs
in order. -/
def upsertMany (db : List DishRow) (language source_scan_id : String)
    (rows : List UpsertRow) (now : String) : List DishRow :=
  if language = "" ∨ rows.length = 0 then db
  else rows.foldl (upsertStep language source_scan_id now) db

/-! ### Lookup lemmas for the upsert -/

theorem keyMatch_mergeDishRow (k lang tn d tg rj sid now : String) (r : DishRow) :
    keyMatch k lang (mergeDishRow r tn d tg rj sid now) = keyMatch k lang r := rfl

theorem findRow_upsert_self (db : List DishRow) (k lang tn d tg rj sid now : String) :
    findRow (upsertDishRow db k lang tn d tg rj sid now) k lang =
      some (match findRow db k lang with
            | none => ⟨k, lang, tn, d, tg, rj, 1, now, sid⟩
            | some old => mergeDishRow old tn d tg rj sid now) := by
  cases h : findRow db k lang with
  | none =>
      simp only [upsertDishRow, h]
      unfold findRow at h ⊢
      rw [List.find?_append, h]
      simp [keyMatch]
  | some old =>
      simp only [upsertDishRow, h]
      have hg : (keyMatch k lang ∘ fun r =>
          if keyMatch k lang r then mergeDishRow r tn d tg rj sid now else r) =
          keyMatch k lang := by
        funext r
        by_cases hr : keyMatch k lang r <;>
          simp [Function.comp, hr, keyMatch_mergeDishRow]
      unfold findRow at h ⊢
      rw [List.find?_map, hg, h]
      have hold : keyMatch k lang old = true := List.find?_some h
      simp [hold]

theorem findRow_upsert_other (db : List DishRow) (k lang k2 lang2 tn d tg rj sid now : String)
    (hne : ¬(k = k2 ∧ lang = lang2)) :
    findRow (upsertDishRow db k lang tn d tg rj sid now) k2 lang2 = findRow db k2 lang2 := by
  cases h : findRow db k lang with
  | none =>
      simp only [upsertDishRow, h]
      unfold findRow
      rw [List.find?_append]
      have hfresh : keyMatch k2 lang2 ⟨k, lang, tn, d, tg, rj, 1, now, sid⟩ = false := by
        simp only [keyMatch]
        by_cases hk : k = k2
        · have hl : ¬lang = lang2 := fun hl => hne ⟨hk, hl⟩
          simp [hk, hl]
        · simp [hk]
      simp [List.find?, hfresh]
  | some old =>
      simp only [upsertDishRow, h]
      unfold findRow
      have hg : (keyMatch k2 lang2 ∘ fun r =>
          if keyMatch k lang r then mergeDishRow r tn d tg rj sid now else r) =
          keyMatch k2 lang2 := by
        funext r
        by_cases hr : keyMatch k lang r <;>
          simp [Function.comp, hr, keyMatch_mergeDishRow]
      rw [List.find?_map, hg]
      cases h2 : db.find? (keyMatch k2 lang2) with
      | none => rfl
      | some r2 =>
          have hr2 : keyMatch k2 lang2 r2 = true := List.find?_some h2
          have hk2 : r2.dish_key = k2 ∧ r2.language = lang2 := by
            simpa [keyMatch] using hr2
          have hnot : keyMatch k lang r2 = false := by
            rcases hk2 with ⟨hd, hl⟩
            simp only [keyMatch, hd, hl]
            rcases Decidable.em (k2 = k) with hk | hk
            · have hlne : ¬lang2 = lang := fun h2 => hne ⟨hk.symm, h2.symm⟩
              simp [hlne]
            · simp [hk]
          simp [hnot]

/-- Claim C1: a merge-upsert onto an existing `(dish_key, language)` row
keeps each of `translated_name`, `description`, `tags` and `romanji`
whenever the stored value is non-empty, and takes the incoming value only
when the stored value is empty; in particular no non-empty field is ever
emptied or replaced. -/
theorem dish_merge_fill_forward (db : List DishRow) (k lang tn d tg rj sid now : String)
    (old : DishRow) (hold : findRow db k lang = some old) :
    ∃ new, findRow (upsertDishRow db k lang tn d tg rj sid now) k lang = some new ∧
      new.translated_name = (if old.translated_name = "" then tn else old.translated_name) ∧
      new.description = (if old.description = "" then d else old.description) ∧
      new.tags = (if old.tags = "[]" then tg else old.tags) ∧
      new.romanji = (if old.romanji = "" then rj else old.romanji) ∧
      (old.translated_name ≠ "" → new.translated_name = old.translated_name) ∧
      (old.description ≠ "" → new.description = old.description) ∧
      (old.tags ≠ "[]" → new.tags = old.tags) ∧
      (old.romanji ≠ "" → new.romanji = old.romanji) := by
  refine ⟨mergeDishRow old tn d tg rj sid now, ?_, rfl, rfl, rfl, rfl, ?_, ?_, ?_, ?_⟩
  · rw [findRow_upsert_self, hold]
  · intro h; simp [mergeDishRow, h]
  · intro h; simp [mergeDishRow, h]
  · intro h; simp [mergeDishRow, h]
  · intro h; simp [mergeDishRow, h]

/-- An example stored row used by the concrete witnesses. -/
def exRow : DishRow :=
  ⟨"a", "L", "Name", "", "[]", "R0", 2, "t0", "job0"⟩

/-- Witness for claim C1 at a concrete store. -/
theorem dish_merge_fill_forward_witness :
    findRow [exRow] "a" "L" = some exRow ∧
    ∃ new, findRow (upsertDishRow [exRow] "a" "L" "T" "D" "[\"x\"]" "Q" "j1" "t1") "a" "L" =
        some new ∧
      new.translated_name =
        (if exRow.translated_name = "" then "T" else exRow.translated_name) ∧
      new.description = (if exRow.description = "" then "D" else exRow.description) ∧
      new.tags = (if exRow.tags = "[]" then "[\"x\"]" else exRow.tags) ∧
      new.romanji = (if exRow.romanji = "" then "Q" else exRow.romanji) ∧
      (exRow.translated_name ≠ "" → new.translated_name = exRow.translated_name) ∧
      (exRow.description ≠ "" → new.description = exRow.description) ∧
      (exRow.tags ≠ "[]" → new.tags = exRow.tags) ∧
      (exRow.romanji ≠ "" → new.romanji = exRow.romanji) :=
  ⟨by decide, dish_merge_fill_forward [exRow] "a" "L" "T" "D" "[\"x\"]" "Q" "j1" "t1" exRow (by decide)⟩

/-! ### seen_count lemmas (claim C3) -/

/-- The `seen_count` stored at `(k, lang)`, `0` when the key is absent. -/
def seenCountAt (db : List DishRow) (k lang : String) : Nat :=
  ((findRow db k lang).map (·.seen_count)).getD 0

theorem seenCountAt_upsert_self (db : List DishRow) (k lang tn d tg rj sid now : String) :
    seenCountAt (upsertDishRow db k lang tn d tg rj sid now) k lang =
      seenCountAt db k lang + 1 := by
  unfold seenCountAt
  rw [findRow_upsert_self]
  cases h : findRow db k lang with
  | none => simp [h]
  | some old => simp [h, mergeDishRow]

theorem seenCountAt_upsert_le (db : List DishRow) (k lang k2 lang2 tn d tg rj sid now : String) :
    seenCountAt db k2 lang2 ≤
      seenCountAt (upsertDishRow db k lang tn d tg rj sid now) k2 lang2 := by
  by_cases hsame : k = k2 ∧ lang = lang2
  · rcases hsame with ⟨rfl, rfl⟩
    rw [seenCountAt_upsert_self]
    exact Nat.le_succ _
  · unfold seenCountAt
    rw [findRow_upsert_other db k lang k2 lang2 tn d tg rj sid now hsame]

theorem seenCountAt_step_le (language sid now : String) (acc : List DishRow)
    (r : UpsertRow) (k2 lang2 : String) :
    seenCountAt acc k2 lang2 ≤ seenCountAt (upsertStep language sid now acc r) k2 lang2 := by
  unfold upsertStep
  by_cases h : trimStr r.dish_key = ""
  · simp [h]
  · rw [if_neg h]
    exact seenCountAt_upsert_le acc _ language k2 lang2 _ _ _ _ _ _

theorem seenCountAt_foldl_le (language sid now : String) (rows : List UpsertRow) :
    ∀ (acc : List DishRow) (k2 lang2 : String),
      seenCountAt acc k2 lang2 ≤
        seenCountAt (rows.foldl (upsertStep language sid now) acc) k2 lang2 := by
  induction rows with
  | nil => intro acc k2 lang2; exact Nat.le_refl _
  | cons r rest ih =>
      intro acc k2 lang2
      simp only [List.foldl_cons]
      exact Nat.le_trans (seenCountAt_step_le language sid now acc r k2 lang2)
        (ih _ k2 lang2)

theorem seenCountAt_foldl_succ (language sid now : String) (rows : List UpsertRow) :
    ∀ (acc : List DishRow) (k : String), k ≠ "" →
      (∃ r ∈ rows, trimStr r.dish_key = k) →
      seenCountAt acc k language + 1 ≤
        seenCountAt (rows.foldl (upsertStep language sid now) acc) k language := by
  induction rows with
  | nil =>
      intro acc k _ hex
      rcases hex with ⟨r, hr, _⟩
      cases hr
  | cons r rest ih =>
      intro acc k hk hex
      simp only [List.foldl_cons]
      rcases hex with ⟨r2, hr2, hkey⟩
      rcases List.mem_cons.mp hr2 with heq | hmem
      · subst heq
        have hstep : seenCountAt (upsertStep language sid now acc r2) k language =
            seenCountAt acc k language + 1 := by
          unfold upsertStep
          rw [hkey, if_neg hk]
          exact seenCountAt_upsert_self acc k language _ _ _ _ _ _
        calc seenCountAt acc k language + 1
            = seenCountAt (upsertStep language sid now acc r2) k language := hstep.symm
          _ ≤ seenCountAt (rest.foldl (upsertStep language sid now)
                (upsertStep language sid now acc r2)) k language :=
              seenCountAt_foldl_le language sid now rest _ k language
      · exact Nat.le_trans
          (Nat.add_le_add_right (seenCountAt_step_le language sid now acc r k language) 1)
          (ih _ k hk ⟨r2, hmem, hkey⟩)

/-- Claim C3: `seen_count` is monotonically non-decreasing per
`(dish_key, language)` under merge-upserts: a first upsert of a key sets
it to `1`, every upsert onto an existing key increments it by exactly `1`
regardless of the other field values, any upsert leaves every key's count
non-decreasing, and an `upsert_many` write-back whose rows resolve the key
increases it by at least `1`. -/
theorem dish_seen_count_monotone :
    (∀ (db : List DishRow) (k lang tn d tg rj sid now : String),
        findRow db k lang = none →
        seenCountAt (upsertDishRow db k lang tn d tg rj sid now) k lang = 1) ∧
    (∀ (db : List DishRow) (k lang tn d tg rj sid now : String),
        seenCountAt (upsertDishRow db k lang tn d tg rj sid now) k lang =
          seenCountAt db k lang + 1) ∧
    (∀ (db : List DishRow) (k lang k2 lang2 tn d tg rj sid now : String),
        seenCountAt db k2 lang2 ≤
          seenCountAt (upsertDishRow db k lang tn d tg rj sid now) k2 lang2) ∧
    (∀ (db : List DishRow) (language sid : String) (rows : List UpsertRow)
        (now k : String), language ≠ "" → k ≠ "" →
        (∃ r ∈ rows, trimStr r.dish_key = k) →
        seenCountAt db k language + 1 ≤
          seenCountAt (upsertMany db language sid rows now) k language) := by
  refine ⟨?_, ?_, ?_, ?_⟩
  · intro db k lang tn d tg rj sid now h
    rw [seenCountAt_upsert_self]
    unfold seenCountAt
    rw [h]
    rfl
  · intro db k lang tn d tg rj sid now
    exact seenCountAt_upsert_self db k lang tn d tg rj sid now
  · intro db k lang k2 lang2 tn d tg rj sid now
    exact seenCountAt_upsert_le db k lang k2 lang2 tn d tg rj sid now
  · intro db language sid rows now k hl hk hex
    have hrows : ¬rows.length = 0 := by
      rcases hex with ⟨r, hr, _⟩
      cases rows with
      | nil => cases hr
      | cons a l => simp
    unfold upsertMany
    rw [if_neg (by rintro (h | h); exact hl h; exact hrows h)]
    exact seenCountAt_foldl_succ language sid now rows db k hk hex

/-- An example incoming row used by the concrete witnesses. -/
def exUpsertRow : UpsertRow := ⟨"a", "T", "D", ["x"], "R"⟩

/-- Witness for claim C3 at a concrete store. -/
theorem dish_seen_count_monotone_witness :
    (findRow [] "a" "L" = none ∧
      seenCountAt (upsertDishRow [] "a" "L" "T" "D" "[]" "R" "j" "t") "a" "L" = 1) ∧
    (("L" : String) ≠ "" ∧ ("a" : String) ≠ "" ∧
      (∃ r ∈ [exUpsertRow], trimStr r.dish_key = "a") ∧
      seenCountAt [exRow] "a" "L" + 1 ≤
        seenCountAt (upsertMany [exRow] "L" "j" [exUpsertRow] "t") "a" "L") :=
  ⟨⟨by decide, dish_seen_count_monotone.1 [] "a" "L" "T" "D" "[]" "R" "j" "t" (by decide)⟩,
    by decide, by decide, ⟨exUpsertRow, by decide, by decide⟩,
    dish_seen_count_monotone.2.2.2 [exRow] "L" "j" [exUpsertRow] "t" "a"
      (by decide) (by decide) ⟨exUpsertRow, by decide, by decide⟩⟩

/-! ### Provenance and timestamp on merge (claim C4) -/

/-- A stored row with a non-empty provenance id, for the C4 counterexample. -/
def exRow4 : DishRow := ⟨"a", "L", "N", "D0", "[\"y\"]", "R1", 3, "t0", "job1"⟩

/-- Claim C4 counterexample: upserting onto `exRow4` with an empty incoming
`source_scan_id` does not replace the stored provenance `job1` by the
incoming empty id, so `source_scan_id` is not updated unconditionally. -/
theorem dish_provenance_cex :
    findRow (upsertDishRow [exRow4] "a" "L" "T" "D" "[]" "R" "" "t1") "a" "L" =
      some ⟨"a", "L", "N", "D0", "[\"y\"]", "R1", 4, "t1", "job1"⟩ ∧
    ("job1" : String) ≠ "" := by
  constructor
  · decide
  · decide

/-- Claim C4 (amended): on a merge-upsert onto an existing row,
`last_seen_at` is updated unconditionally to the incoming scan's
timestamp, while `source_scan_id` is updated to the incoming source id
only when that id is non-empty; an empty incoming id retains the stored
provenance. -/
theorem dish_provenance_amended (db : List DishRow) (k lang tn d tg rj sid now : String)
    (old : DishRow) (hold : findRow db k lang = some old) :
    ∃ new, findRow (upsertDishRow db k lang tn d tg rj sid now) k lang = some new ∧
      new.last_seen_at = now ∧
      new.source_scan_id = (if sid = "" then old.source_scan_id else sid) ∧
      (sid ≠ "" → new.source_scan_id = sid) := by
  refine ⟨mergeDishRow old tn d tg rj sid now, ?_, rfl, rfl, ?_⟩
  · rw [findRow_upsert_self, hold]
  · intro h
    simp [mergeDishRow, h]

/-- Witness for the amended claim C4 at a concrete store. -/
theorem dish_provenance_amended_witness :
    findRow [exRow4] "a" "L" = some exRow4 ∧
    ∃ new, findRow (upsertDishRow [exRow4] "a" "L" "T" "D" "[]" "R" "j9" "t1") "a" "L" =
        some new ∧
      new.last_seen_at = "t1" ∧
      new.source_scan_id = (if ("j9" : String) = "" then exRow4.source_scan_id else "j9") ∧
      (("j9" : String) ≠ "" → new.source_scan_id = "j9") :=
  ⟨by decide, dish_provenance_amended [exRow4] "a" "L" "T" "D" "[]" "R" "j9" "t1" exRow4 (by decide)⟩

/-! ## Dish-knowledge fetch (claim C8) -/

/-- An entry of the map returned by `/internal/dish_knowledge/fetch`,
keyed by `dish_key`. -/
structure FetchItem where
  dish_key : String
  translated_name : String
  description : String
  tags : String
  romanji : String
  seen_count : Nat
deriving DecidableEq

/-- The `/internal/dish_knowledge/fetch` handler: requested keys are
trimmed and empty keys dropped; an empty language or empty key list
returns an empty map; otherwise the rows with the requested language and
a requested key are returned keyed by `dish_key` (rows with an empty
`dish_key` are skipped when building the map). -/
def fetchDishKnowledge (db : List DishRow) (language : String)
    (dish_keys : List String) : List FetchItem :=
  let keys := (dish_keys.map trimStr).filter fun k => k != ""
  if language = "" ∨ keys.length = 0 then []
  else
    (((db.filter fun r => r.language == language && keys.contains r.dish_key).filter
        fun r => r.dish_key != "").map
      fun r => ⟨r.dish_key, r.translated_name, r.description, r.tags, r.romanji, r.seen_count⟩)

/-- Claim C8: every entry of the fetch result is keyed by one of the
requested (trimmed, non-empty) dish keys and is copied from a stored row
with that key and the requested language, so no knowledge learned under a
different key or language is ever returned; an empty language or an empty
`dish_keys` list yields an empty map. -/
theorem fetch_no_wrong_reuse (db : List DishRow) (language : String)
    (dish_keys : List String) :
    (∀ it ∈ fetchDishKnowledge db language dish_keys,
        it.dish_key ∈ (dish_keys.map trimStr).filter (fun k => k != "") ∧
        ∃ r ∈ db, r.dish_key = it.dish_key ∧ r.language = language ∧
          it.translated_name = r.translated_name ∧ it.description = r.description ∧
          it.tags = r.tags ∧ it.romanji = r.romanji ∧ it.seen_count = r.seen_count) ∧
    (language = "" → fetchDishKnowledge db language dish_keys = []) ∧
    (dish_keys = [] → fetchDishKnowledge db language dish_keys = []) := by
  refine ⟨?_, ?_, ?_⟩
  · intro it hit
    simp only [fetchDishKnowledge] at hit
    split at hit
    · cases hit
    · rcases List.mem_map.mp hit with ⟨r, hr, rfl⟩
      rcases List.mem_filter.mp hr with ⟨hr1, _⟩
      rcases List.mem_filter.mp hr1 with ⟨hrdb, hcond⟩
      have hcond2 : r.language = language ∧
          ((dish_keys.map trimStr).filter fun k => k != "").contains r.dish_key = true := by
        simpa [Bool.and_eq_true] using hcond
      refine ⟨?_, r, hrdb, rfl, hcond2.1, rfl, rfl, rfl, rfl, rfl⟩
      simpa using hcond2.2
  · intro h
    simp [fetchDishKnowledge, h]
  · intro h
    simp [fetchDishKnowledge, h]

/-- The fetch entry corresponding to `exRow4`. -/
def exFetchItem : FetchItem := ⟨"a", "N", "D0", "[\"y\"]", "R1", 3⟩

/-- Witness for claim C8 at a concrete store and request. -/
theorem fetch_no_wrong_reuse_witness :
    (exFetchItem ∈ fetchDishKnowledge [exRow4] "L" ["a", "", " x "] ∧
      (exFetchItem.dish_key ∈ ((["a", "", " x "].map trimStr).filter fun k => k != "") ∧
        ∃ r ∈ [exRow4], r.dish_key = exFetchItem.dish_key ∧ r.language = "L" ∧
          exFetchItem.translated_name = r.translated_name ∧
          exFetchItem.description = r.description ∧
          exFetchItem.tags = r.tags ∧ exFetchItem.romanji = r.romanji ∧
          exFetchItem.seen_count = r.seen_count)) ∧
    fetchDishKnowledge [exRow4] "" ["a"] = [] ∧
    fetchDishKnowledge [exRow4] "L" [] = [] :=
  ⟨⟨by decide,
      (fetch_no_wrong_reuse [exRow4] "L" ["a", "", " x "]).1 exFetchItem (by decide)⟩,
    (fetch_no_wrong_reuse [exRow4] "" ["a"]).2.1 rfl,
    (fetch_no_wrong_reuse [exRow4] "L" []).2.2 rfl⟩

/-! ## Scan records (claim C9) -/

/-- A row of the `scan_records` D1 table; `scan_id` is the primary key and
`items` holds the serialized item list. -/
structure ScanRecord where
  scan_id : String
  created_at : String
  image_hash_sha256 : String
  language : String
  items : String
deriving DecidableEq

/-- The `/internal/scan_records/insert` handler: responds `204` on every
branch; a missing `scan_id` or `language` is a no-op; otherwise the row is
inserted with `INSERT OR IGNORE` keyed on the `scan_id` primary key, so a
conflicting insert leaves the table unchanged. -/
def insertScanRecord (db : List ScanRecord) (scan_id image_hash language items now : String) :
    List ScanRecord × Nat :=
  if scan_id = "" ∨ language = "" then (db, 204)
  else if (db.find? fun r => r.scan_id == scan_id).isSome then (db, 204)
  else (db ++ [⟨scan_id, now, image_hash, language, items⟩], 204)

/-- Claim C9: inserting a `ScanRecord` is idempotent in the scan id: an
insert for a `scan_id` already present leaves the store unchanged, every
insert reports success (`204`), inserting the same record twice yields the
same store as inserting it once, and the at-most-one-record-per-scan-id
invariant is preserved. -/
theorem scan_insert_idempotent :
    (∀ (db : List ScanRecord) (sid ih lang it now : String) (r0 : ScanRecord),
        (db.find? fun r => r.scan_id == sid) = some r0 →
        (insertScanRecord db sid ih lang it now).1 = db) ∧
    (∀ (db : List ScanRecord) (sid ih lang it now now2 : String),
        (insertScanRecord (insertScanRecord db sid ih lang it now).1 sid ih lang it now2).1 =
          (insertScanRecord db sid ih lang it now).1) ∧
    (∀ (db : List ScanRecord) (sid ih lang it now : String),
        (insertScanRecord db sid ih lang it now).2 = 204) ∧
    (∀ (db : List ScanRecord) (sid ih lang it now s : String),
        (db.filter fun r => r.scan_id == s).length ≤ 1 →
        ((insertScanRecord db sid ih lang it now).1.filter fun r => r.scan_id == s).length ≤ 1) := by
  refine ⟨?_, ?_, ?_, ?_⟩
  · intro db sid ih lang it now r0 hfind
    unfold insertScanRecord
    by_cases hg : sid = "" ∨ lang = ""
    · simp [hg]
    · simp [hg, hfind]
  · intro db sid ih lang it now now2
    by_cases hg : sid = "" ∨ lang = ""
    · simp [insertScanRecord, hg]
    · by_cases hfind : (db.find? fun r => r.scan_id == sid).isSome
      · simp [insertScanRecord, hg, hfind]
      · have hstep : (insertScanRecord db sid ih lang it now).1 =
            db ++ [⟨sid, now, ih, lang, it⟩] := by
          simp [insertScanRecord, hg, hfind]
        rw [hstep]
        have hsome : ((db ++ [(⟨sid, now, ih, lang, it⟩ : ScanRecord)]).find?
            fun r => r.scan_id == sid).isSome := by
          rw [List.find?_append]
          cases hdb : db.find? fun r => r.scan_id == sid with
          | some r1 => simp
          | none => simp [List.find?]
        simp [insertScanRecord, hg, hsome]
  · intro db sid ih lang it now
    unfold insertScanRecord
    by_cases hg : sid = "" ∨ lang = ""
    · simp [hg]
    · by_cases hfind : (db.find? fun r => r.scan_id == sid).isSome <;> simp [hg, hfind]
  · intro db sid ih lang it now s hinv
    unfold insertScanRecord
    by_cases hg : sid = "" ∨ lang = ""
    · simpa [hg] using hinv
    · by_cases hfind : (db.find? fun r => r.scan_id == sid).isSome
      · simpa [hg, hfind] using hinv
      · simp only [hg, hfind, if_false, Bool.false_eq_true]
        rw [List.filter_append, List.length_append]
        by_cases hs : s = sid
        · subst hs
          have hnone : (db.find? fun r => r.scan_id == s) = none := by
            cases hx : db.find? fun r => r.scan_id == s with
            | none => rfl
            | some r1 => rw [hx] at hfind; simp at hfind
          have hempty : (db.filter fun r => r.scan_id == s) = [] := by
            rw [List.filter_eq_nil_iff]
            intro r hr
            have := List.find?_eq_none.mp hnone r hr
            simpa using this
          simp [hempty]
        · have hne : ((⟨sid, now, ih, lang, it⟩ : ScanRecord).scan_id == s) = false := by
            simp only [beq_eq_false_iff_ne]
            exact fun h => hs h.symm
          simp only [List.filter_cons, hne, List.filter_nil]
          simpa using hinv

/-- Witness for claim C9 at a concrete store. -/
theorem scan_insert_idempotent_witness :
    (([(⟨"s1", "t0", "h0", "L", "[]"⟩ : ScanRecord)].find? fun r => r.scan_id == "s1") =
        some ⟨"s1", "t0", "h0", "L", "[]"⟩ ∧
      (insertScanRecord [⟨"s1", "t0", "h0", "L", "[]"⟩] "s1" "h1" "L" "[]" "t1").1 =
        [⟨"s1", "t0", "h0", "L", "[]"⟩]) ∧
    (([] : List ScanRecord).filter (fun r => r.scan_id == "s1")).length ≤ 1 ∧
    ((insertScanRecord [] "s1" "h1" "L" "[]" "t1").1.filter
        fun r => r.scan_id == "s1").length ≤ 1 :=
  ⟨⟨by decide,
      scan_insert_idempotent.1 [⟨"s1", "t0", "h0", "L", "[]"⟩] "s1" "h1" "L" "[]" "t1"
        ⟨"s1", "t0", "h0", "L", "[]"⟩ (by decide)⟩,
    by decide,
    scan_insert_idempotent.2.2.2 [] "s1" "h1" "L" "[]" "t1" "s1" (by decide)⟩

/-! ## Mobile client session store (mobile/lib/store.ts) -/

/-- A `MenuItem` of `mobile/types/index.ts`: `image_url` and `romanji` are
optional; `image_status` is a string union. -/
structure MenuItem where
  id : String
  original_name : String
  translated_name : String
  description : String
  tags : List String
  is_top3 : Bool
  image_url : Option String
  image_status : String
  romanji : Option String
deriving DecidableEq

/-- A `ScanSession` of `mobile/types/index.ts`. -/
structure ScanSession where
  sessionId : String
  status : String
  statusMessage : String
  progress : Nat
  menuItems : List MenuItem
  originalImageUri : String
  elapsedMs : Option Nat
  usedCache : Option Bool
  errorCode : Option String
  errorMessage : Option String
deriving DecidableEq

/-- JS `Map.set` on an insertion-ordered association list: an existing key
is updated in place, a new key is appended. -/
def mapSet (m : List (String × MenuItem)) (k : String) (v : MenuItem) :
    List (String × MenuItem) :=
  if m.any fun p => p.1 == k then m.map fun p => if p.1 == k then (k, v) else p
  else m ++ [(k, v)]

/-- JS `Map.get`. -/
def mapGet (m : List (String × MenuItem)) (k : String) : Option MenuItem :=
  (m.find? fun p => p.1 == k).map (·.2)

/-- `new Map(items.map((m) => [m.id, m]))`. -/
def mapOfItems (items : List MenuItem) : List (String × MenuItem) :=
  items.foldl (fun acc m => mapSet acc m.id m) []

/-- The merge performed by `setMenuItems` for an id already in the map:
the object spread takes every field from the incoming item (`romanji`
falls back to the existing value only when the incoming key is absent),
and only `image_url` and `image_status` fall back to the existing value
when the incoming value is absent or empty (the `||` defaults). -/
def mergeMenuItem (existing item : MenuItem) : MenuItem :=
  { id := item.id
    original_name := item.original_name
    translated_name := item.translated_name
    description := item.description
    tags := item.tags
    is_top3 := item.is_top3
    image_url :=
      match item.image_url with
      | some u => if u = "" then existing.image_url else some u
      | none => existing.image_url
    image_status :=
      if item.image_status = "" then existing.image_status else item.image_status
    romanji :=
      match item.romanji with
      | some v => some v
      | none => existing.romanji }

/-- `setMenuItems` of `mobile/lib/store.ts`: build a map of the current
items keyed by id, merge each incoming item into it (existing ids are
merged, new ids appended), and store the map's values; the `isPartial`
argument (here `b`) is unused by the merge. -/
def setMenuItems (s : ScanSession) (items : List MenuItem) (b : Bool) : ScanSession :=
  let m0 := mapOfItems s.menuItems
  let m1 := items.foldl
    (fun acc item =>
      match mapGet acc item.id with
      | some existing => mapSet acc item.id (mergeMenuItem existing item)
      | none => mapSet acc item.id item) m0
  { s with menuItems := m1.map (·.2) }

/-- `updateItemImage` of `mobile/lib/store.ts`: map over the items,
patching `image_status` and `image_url` of the item with the given id
(`imageUrl ?? item.image_url`). -/
def updateItemImage (s : ScanSession) (itemId imageStatus : String)
    (imageUrl : Option String) : ScanSession :=
  { s with
    menuItems := s.menuItems.map fun item =>
      if item.id == itemId then
        { item with
          image_status := imageStatus
          image_url := match imageUrl with
            | some u => some u
            | none => item.image_url }
      else item }

/-- Claim C10: `updateItemImage` only modifies the menu item whose id
equals `itemId`, and of that item only `image_status` and `image_url`
(`image_url` keeps its previous value when no new url is given); every
other item, every other field of the updated item, and all other session
fields are unchanged; when no item has the id, the item list is unchanged. -/
theorem updateItemImage_frame (s : ScanSession) (itemId imageStatus : String)
    (imageUrl : Option String) :
    ((updateItemImage s itemId imageStatus imageUrl).sessionId = s.sessionId ∧
      (updateItemImage s itemId imageStatus imageUrl).status = s.status ∧
      (updateItemImage s itemId imageStatus imageUrl).statusMessage = s.statusMessage ∧
      (updateItemImage s itemId imageStatus imageUrl).progress = s.progress ∧
      (updateItemImage s itemId imageStatus imageUrl).originalImageUri = s.originalImageUri ∧
      (updateItemImage s itemId imageStatus imageUrl).elapsedMs = s.elapsedMs ∧
      (updateItemImage s itemId imageStatus imageUrl).usedCache = s.usedCache ∧
      (updateItemImage s itemId imageStatus imageUrl).errorCode = s.errorCode ∧
      (updateItemImage s itemId imageStatus imageUrl).errorMessage = s.errorMessage) ∧
    (updateItemImage s itemId imageStatus imageUrl).menuItems.length = s.menuItems.length ∧
    (∀ (i : Nat) (old : MenuItem), s.menuItems[i]? = some old →
      ∃ new, (updateItemImage s itemId imageStatus imageUrl).menuItems[i]? = some new ∧
        (¬old.id = itemId → new = old) ∧
        (old.id = itemId →
          new.id = old.id ∧ new.original_name = old.original_name ∧
          new.translated_name = old.translated_name ∧
          new.description = old.description ∧ new.tags = old.tags ∧
          new.is_top3 = old.is_top3 ∧ new.romanji = old.romanji ∧
          new.image_status = imageStatus ∧
          new.image_url = (match imageUrl with
            | some u => some u
            | none => old.image_url))) ∧
    ((∀ item ∈ s.menuItems, ¬item.id = itemId) →
      (updateItemImage s itemId imageStatus imageUrl).menuItems = s.menuItems) := by
  refine ⟨⟨rfl, rfl, rfl, rfl, rfl, rfl, rfl, rfl, rfl⟩, ?_, ?_, ?_⟩
  · simp [updateItemImage]
  · intro i old hold
    have hmap : (updateItemImage s itemId imageStatus imageUrl).menuItems[i]? =
        (s.menuItems[i]?).map fun item =>
          if item.id == itemId then
            { item with
              image_status := imageStatus
              image_url := match imageUrl with
                | some u => some u
                | none => item.image_url }
          else item := by
      simp [updateItemImage]
    rw [hmap, hold]
    by_cases h : old.id = itemId
    · refine ⟨_, rfl, fun hc => absurd h hc, fun _ => ?_⟩
      simp [h]
    · refine ⟨_, rfl, fun _ => ?_, fun hc => absurd hc h⟩
      have hb : (old.id == itemId) = false := by
        simpa using h
      simp [hb]
  · intro hnone
    have hmap : ∀ l : List MenuItem, (∀ item ∈ l, ¬item.id = itemId) →
        (l.map fun item =>
          if item.id == itemId then
            { item with
              image_status := imageStatus
              image_url := match imageUrl with
                | some u => some u
                | none => item.image_url }
          else item) = l := by
      intro l
      induction l with
      | nil => intro _; rfl
      | cons a t ih =>
          intro hl
          have ha : ¬((a.id == itemId) = true) := by
            simpa using hl a (List.mem_cons_self a t)
          rw [List.map_cons, if_neg ha,
            ih fun item hit => hl item (List.mem_cons_of_mem a hit)]
    exact hmap s.menuItems hnone

/-- A concrete session with two items, for the C10 witness. -/
def exItemA : MenuItem :=
  ⟨"1", "oa", "ta", "da", ["x"], true, some "u0", "pending", some "ra"⟩

/-- The second concrete item, whose id does not match the concrete update. -/
def exItemB : MenuItem :=
  ⟨"2", "ob", "tb", "db", [], false, none, "none", none⟩

/-- The concrete session holding `exItemA` and `exItemB`. -/
def exSession : ScanSession :=
  ⟨"sess", "scanning", "", 0, [exItemA, exItemB], "uri", none, none, none, none⟩

/-- Witness for claim C10 at a concrete session and update. -/
theorem updateItemImage_frame_witness :
    (exSession.menuItems[0]? = some exItemA ∧
      ∃ new, (updateItemImage exSession "1" "ready" (some "u1")).menuItems[0]? = some new ∧
        (¬exItemA.id = "1" → new = exItemA) ∧
        (exItemA.id = "1" →
          new.id = exItemA.id ∧ new.original_name = exItemA.original_name ∧
          new.translated_name = exItemA.translated_name ∧
          new.description = exItemA.description ∧ new.tags = exItemA.tags ∧
          new.is_top3 = exItemA.is_top3 ∧ new.romanji = exItemA.romanji ∧
          new.image_status = "ready" ∧
          new.image_url = (match (some "u1" : Option String) with
            | some u => some u
            | none => exItemA.image_url))) ∧
    (exSession.menuItems[1]? = some exItemB ∧
      ∃ new, (updateItemImage exSession "1" "ready" (some "u1")).menuItems[1]? = some new ∧
        (¬exItemB.id = "1" → new = exItemB) ∧
        (exItemB.id = "1" →
          new.id = exItemB.id ∧ new.original_name = exItemB.original_name ∧
          new.translated_name = exItemB.translated_name ∧
          new.description = exItemB.description ∧ new.tags = exItemB.tags ∧
          new.is_top3 = exItemB.is_top3 ∧ new.romanji = exItemB.romanji ∧
          new.image_status = "ready" ∧
          new.image_url = (match (some "u1" : Option String) with
            | some u => some u
            | none => exItemB.image_url))) ∧
    ((∀ item ∈ exSession.menuItems, ¬item.id = "zz") ∧
      (updateItemImage exSession "zz" "ready" none).menuItems = exSession.menuItems) :=
  ⟨⟨by decide,
      (updateItemImage_frame exSession "1" "ready" (some "u1")).2.2.1 0 exItemA (by decide)⟩,
    ⟨by decide,
      (updateItemImage_frame exSession "1" "ready" (some "u1")).2.2.1 1 exItemB (by decide)⟩,
    by decide,
    (updateItemImage_frame exSession "zz" "ready" none).2.2.2 (by decide)⟩

/-! ### setMenuItems merge (claim C7) -/

theorem mapOfItems_aux (l : List MenuItem) :
    ∀ acc : List (String × MenuItem),
      (∀ m ∈ l, ∀ p ∈ acc, ¬p.1 = m.id) →
      (l.map (·.id)).Nodup →
      l.foldl (fun acc m => mapSet acc m.id m) acc =
        acc ++ l.map fun m => (m.id, m) := by
  induction l with
  | nil => intro acc _ _; simp
  | cons a t ih =>
      intro acc hdisj hnodup
      rw [List.map_cons, List.nodup_cons] at hnodup
      simp only [List.foldl_cons]
      have hnotin : ¬((acc.any fun p => p.1 == a.id) = true) := by
        simp only [List.any_eq_true]
        rintro ⟨p, hp, hpe⟩
        exact hdisj a (List.mem_cons_self a t) p hp (by simpa using hpe)
      have hset : mapSet acc a.id a = acc ++ [(a.id, a)] := by
        unfold mapSet
        rw [if_neg hnotin]
      rw [hset, ih (acc ++ [(a.id, a)]) ?_ hnodup.2]
      · simp
      · intro m hm p hp
        rcases List.mem_append.mp hp with h1 | h1
        · exact hdisj m (List.mem_cons_of_mem a hm) p h1
        · have hpa : p = (a.id, a) := by simpa using h1
          subst hpa
          intro hcontra
          exact hnodup.1 (by
            rw [show a.id = m.id from hcontra]
            exact List.mem_map.mpr ⟨m, hm, rfl⟩)

theorem mapOfItems_eq (l : List MenuItem) (h : (l.map (·.id)).Nodup) :
    mapOfItems l = l.map fun m => (m.id, m) := by
  unfold mapOfItems
  simpa using mapOfItems_aux l [] (by intro m _ p hp; cases hp) h

theorem setMenuItems_single (s : ScanSession) (inc : MenuItem) (b : Bool) (old : MenuItem)
    (hnodup : (s.menuItems.map (·.id)).Nodup)
    (hold : s.menuItems.find? (fun m => m.id == inc.id) = some old) :
    (setMenuItems s [inc] b).menuItems.find? (fun m => m.id == inc.id) =
      some (mergeMenuItem old inc) := by
  have hm0 : mapOfItems s.menuItems = s.menuItems.map fun m => (m.id, m) :=
    mapOfItems_eq s.menuItems hnodup
  have holdid : old.id = inc.id := by
    have := List.find?_some hold
    simpa using this
  have hget : mapGet (mapOfItems s.menuItems) inc.id = some old := by
    unfold mapGet
    rw [hm0, List.find?_map]
    have hp : ((fun p => p.1 == inc.id) ∘ fun m => ((m.id, m) : String × MenuItem)) =
        fun m => m.id == inc.id := rfl
    rw [hp, hold]
    rfl
  have hany : ((mapOfItems s.menuItems).any fun p => p.1 == inc.id) = true := by
    rw [hm0, List.any_eq_true]
    refine ⟨(old.id, old), List.mem_map.mpr ⟨old, List.mem_of_find?_eq_some hold, rfl⟩, ?_⟩
    simpa using holdid
  have hitems : (setMenuItems s [inc] b).menuItems =
      s.menuItems.map fun m =>
        if m.id == inc.id then mergeMenuItem old inc else m := by
    show (((List.foldl _ (mapOfItems s.menuItems) [inc])).map (·.2)) = _
    simp only [List.foldl_cons, List.foldl_nil, hget]
    unfold mapSet
    rw [if_pos hany, hm0, List.map_map, List.map_map]
    congr 1
    funext m
    by_cases hm : m.id == inc.id
    · simp [Function.comp, hm]
    · simp [Function.comp, hm]
  rw [hitems]
  have hpres : ((fun m => m.id == inc.id) ∘ fun m =>
      if m.id == inc.id then mergeMenuItem old inc else m) =
      fun m => m.id == inc.id := by
    funext m
    by_cases hm : m.id == inc.id
    · simp [Function.comp, hm, mergeMenuItem]
    · simp [Function.comp, hm]
  rw [List.find?_map, hpres, hold]
  simp [holdid]

/-- Stored item for the C7 counterexample: every field populated. -/
def exItemOld7 : MenuItem :=
  ⟨"1", "orig", "Sushi", "desc", ["t"], true, some "u0", "ready", some "ro"⟩

/-- Incoming snapshot item for the C7 counterexample: blank
`translated_name`, `description` and `tags`. -/
def exItemInc7 : MenuItem :=
  ⟨"1", "orig", "", "", [], false, none, "pending", none⟩

/-- Session holding only `exItemOld7`, for the C7 counterexample. -/
def exSession7 : ScanSession :=
  ⟨"sess", "scanning", "", 0, [exItemOld7], "", none, none, none, none⟩

/-- Claim C7 counterexample: merging a snapshot whose item has blank
`translated_name`, `description` and `tags` onto an existing fully
populated item of the same id overwrites those non-empty fields with the
blanks; only `image_url`, `image_status` and an absent `romanji` fall back
to the existing values. -/
theorem menu_merge_cex :
    (setMenuItems exSession7 [exItemInc7] true).menuItems =
      [⟨"1", "orig", "", "", [], false, some "u0", "pending", some "ro"⟩] ∧
    exItemOld7.translated_name = "Sushi" ∧ ("Sushi" : String) ≠ "" ∧
    exItemInc7.translated_name = "" := by
  refine ⟨by decide, by decide, by decide, by decide⟩

/-- Claim C7 (amended): `setMenuItems` identifies items by their per-job
id; for an id already present, only `image_url` and `image_status` are
protected against blank incoming values (and an absent incoming `romanji`
keeps the existing reading), while every other non-identity field —
`original_name`, `translated_name`, `description`, `tags`, `is_top3` —
takes the incoming snapshot's value unconditionally, even when blank. -/
theorem menu_merge_amended (s : ScanSession) (inc : MenuItem) (b : Bool) (old : MenuItem)
    (hnodup : (s.menuItems.map (·.id)).Nodup)
    (hold : s.menuItems.find? (fun m => m.id == inc.id) = some old) :
    ∃ merged, (setMenuItems s [inc] b).menuItems.find? (fun m => m.id == inc.id) =
        some merged ∧
      merged.id = inc.id ∧ merged.original_name = inc.original_name ∧
      merged.translated_name = inc.translated_name ∧
      merged.description = inc.description ∧
      merged.tags = inc.tags ∧ merged.is_top3 = inc.is_top3 ∧
      merged.image_status =
        (if inc.image_status = "" then old.image_status else inc.image_status) ∧
      merged.image_url = (match inc.image_url with
        | some u => if u = "" then old.image_url else some u
        | none => old.image_url) ∧
      merged.romanji = (match inc.romanji with
        | some v => some v
        | none => old.romanji) :=
  ⟨mergeMenuItem old inc, setMenuItems_single s inc b old hnodup hold,
    rfl, rfl, rfl, rfl, rfl, rfl, rfl, rfl, rfl⟩

/-- Incoming item for the amended-C7 witness: empty `image_status` and an
empty-string `image_url`, both of which must fall back to the stored
values. -/
def exItemInc7b : MenuItem :=
  ⟨"1", "o2", "T2", "", [], false, some "", "", some "r2"⟩

/-- Session with two distinct ids for the amended-C7 witness. -/
def exSession7b : ScanSession :=
  ⟨"sess", "scanning", "", 0, [exItemOld7, exItemB], "", none, none, none, none⟩

/-- Witness for the amended claim C7 at a concrete session and snapshot. -/
theorem menu_merge_amended_witness :
    (exSession7b.menuItems.map (·.id)).Nodup ∧
    exSession7b.menuItems.find? (fun m => m.id == exItemInc7b.id) = some exItemOld7 ∧
    ∃ merged,
      (setMenuItems exSession7b [exItemInc7b] false).menuItems.find?
          (fun m => m.id == exItemInc7b.id) = some merged ∧
      merged.id = exItemInc7b.id ∧ merged.original_name = exItemInc7b.original_name ∧
      merged.translated_name = exItemInc7b.translated_name ∧
      merged.description = exItemInc7b.description ∧
      merged.tags = exItemInc7b.tags ∧ merged.is_top3 = exItemInc7b.is_top3 ∧
      merged.image_status =
        (if exItemInc7b.image_status = "" then exItemOld7.image_status
          else exItemInc7b.image_status) ∧
      merged.image_url = (match exItemInc7b.image_url with
        | some u => if u = "" then exItemOld7.image_url else some u
        | none => exItemOld7.image_url) ∧
      merged.romanji = (match exItemInc7b.romanji with
        | some v => some v
        | none => exItemOld7.romanji) :=
  ⟨by decide, by decide,
    menu_merge_amended exSession7b exItemInc7b false exItemOld7 (by decide) (by decide)⟩

/-! ## Client SSE consumers (claim C6) -/

/-- A parsed SSE event as dispatched by the mobile client's consumers. -/
inductive ClientEvent
  | status (payload : String)
  | menuData (payload : String)
  | imageUpdate (payload : String)
  | error (code : String) (recoverable : Bool)
  | done (status : String)
  | heartbeat (ts : String)
  | timeout
deriving DecidableEq

/-- The dispatch loop of the legacy `startScan` consumer
(`mobile/lib/api.ts`): each parsed event is forwarded to its callback; on
an `error` or `done` event the promise is resolved and the request
aborted, so no later event is consumed; event types without a `case`
(`heartbeat`, `timeout`) are skipped but do not stop the loop. -/
def startScanDeliver : List ClientEvent → List ClientEvent
  | [] => []
  | .error c r :: _ => [.error c r]
  | .done st :: _ => [.done st]
  | .heartbeat _ :: rest => startScanDeliver rest
  | .timeout :: rest => startScanDeliver rest
  | e :: rest => e :: startScanDeliver rest

/-- The dispatch loop of the resumable `streamJobEvents` consumer
(part_010): every parsed event is forwarded to its callback; `error` and
`done` only mark the stream settled (suppressing the synthetic
network-error callbacks) and do not stop consumption; `timeout` has no
callback. -/
def streamJobEventsDeliver : List ClientEvent → List ClientEvent
  | [] => []
  | .timeout :: rest => streamJobEventsDeliver rest
  | e :: rest => e :: streamJobEventsDeliver rest

/-- Claim C6 counterexample: in the legacy `startScan` consumer a
recoverable `error` event ends the stream — the `menu_data` and `done`
events following it are never consumed. -/
theorem client_error_ends_stream_cex :
    startScanDeliver
        [ClientEvent.error "UPSTREAM_TIMEOUT" true, ClientEvent.menuData "m",
          ClientEvent.done "completed"] =
      [ClientEvent.error "UPSTREAM_TIMEOUT" true] ∧
    ClientEvent.menuData "m" ∉
      startScanDeliver
        [ClientEvent.error "UPSTREAM_TIMEOUT" true, ClientEvent.menuData "m",
          ClientEvent.done "completed"] ∧
    ClientEvent.done "completed" ∉
      startScanDeliver
        [ClientEvent.error "UPSTREAM_TIMEOUT" true, ClientEvent.menuData "m",
          ClientEvent.done "completed"] := by
  refine ⟨by decide, by decide, by decide⟩

/-- Claim C6 (amended): in the resumable `streamJobEvents` consumer no
`error` event ends consumption — whether recoverable or not, the events
before and after it, including a subsequent `done`, are all still
delivered; in the legacy `startScan` consumer any `error` event,
recoverable or not, immediately ends the stream with only that event
delivered from that point on. -/
theorem client_error_propagation_amended :
    (∀ (pre post : List ClientEvent) (c : String) (r : Bool),
        streamJobEventsDeliver (pre ++ ClientEvent.error c r :: post) =
          streamJobEventsDeliver pre ++
            ClientEvent.error c r :: streamJobEventsDeliver post) ∧
    (∀ (c : String) (r : Bool) (rest : List ClientEvent),
        startScanDeliver (ClientEvent.error c r :: rest) = [ClientEvent.error c r]) := by
  constructor
  · intro pre post c r
    induction pre with
    | nil => rfl
    | cons e t ih =>
        cases e <;> simp [streamJobEventsDeliver, ih]
  · intro c r rest
    rfl

/-! ## Event Log read and replay (claim C5, modelled from the spec) -/

/-- Modelled from the spec: an event of the per-job Event Log — the Cloud
Run backend owning the log is not part of this repository — carrying its
per-job sequence number, type and payload (spec sections 3 and 4.2). -/
structure LogEvent where
  seq : Nat
  etype : String
  payload : String
deriving DecidableEq

/-- Modelled from the spec: the server-side event read `read(jobId,
afterSeq)` behind `GET .../events?last_event_id=k`: replay only the events
with `seq > last_event_id`, in log order (spec sections 4.2 and 6). -/
def readEvents (log : List LogEvent) (afterSeq : Nat) : List LogEvent :=
  log.filter fun e => afterSeq < e.seq

theorem filter_seq_range (k : Nat) (log : List LogEvent) :
    ∀ s n : Nat, log.map (·.seq) = List.range' s n →
      (log.filter fun e => k < e.seq) = log.drop (k + 1 - s) := by
  induction log with
  | nil => intro s n _; simp
  | cons e t ih =>
      intro s n hmap
      cases n with
      | zero => simp at hmap
      | succ m =>
          rw [List.range'_succ] at hmap
          simp only [List.map_cons, List.cons.injEq] at hmap
          rcases hmap with ⟨he, ht⟩
          by_cases hk : k < e.seq
          · have h1 : k + 1 - s = 0 := by omega
            have h2 : k + 1 - (s + 1) = 0 := by omega
            rw [List.filter_cons_of_pos (by simpa using hk), ih (s + 1) m ht, h1, h2]
            simp
          · have h1 : k + 1 - s = (k + 1 - (s + 1)) + 1 := by omega
            rw [List.filter_cons_of_neg (by simpa using hk), ih (s + 1) m ht, h1,
              List.drop_succ_cons]

/-- Claim C5: for a job whose Event Log holds events with gapless sequence
numbers `1..n`, a read with `last_event_id = k` (for `k ≤ n`) returns
exactly the stored events with sequence numbers `k+1..n` — the log's own
suffix, so payloads replay identically — in strictly ascending order with
no duplicates; `readEvents` is a pure function of the log, so repeating
the read yields the identical event list. -/
theorem replay_exact (log : List LogEvent) (n k : Nat)
    (hseq : log.map (·.seq) = List.range' 1 n) (hk : k ≤ n) :
    readEvents log k = log.drop k ∧
    (readEvents log k).map (·.seq) = List.range' (k + 1) (n - k) ∧
    ((readEvents log k).map (·.seq)).Pairwise (· < ·) ∧
    ((readEvents log k).map (·.seq)).Nodup := by
  have happ : List.range' 1 k ++ List.range' (k + 1) (n - k) = List.range' 1 n := by
    have h := List.range'_append_1 1 k (n - k)
    rw [Nat.add_comm 1 k] at h
    rw [h]
    congr 1
    omega
  have hread : readEvents log k = log.drop k := by
    unfold readEvents
    have h11 : k + 1 - 1 = k := by omega
    rw [filter_seq_range k log 1 n hseq, h11]
  have hmap : (readEvents log k).map (·.seq) = List.range' (k + 1) (n - k) := by
    rw [hread, List.map_drop, hseq, ← happ]
    exact List.drop_left' (by simp)
  refine ⟨hread, hmap, ?_, ?_⟩
  · rw [hmap]
    exact List.pairwise_lt_range' (k + 1) (n - k) 1 Nat.one_pos
  · rw [hmap]
    exact List.nodup_range' (k + 1) (n - k)

/-- A concrete seven-event log, for the C5 witness. -/
def exLog : List LogEvent :=
  [⟨1, "status", "s1"⟩, ⟨2, "menu_data", "m1"⟩, ⟨3, "status", "s2"⟩,
    ⟨4, "menu_data", "m2"⟩, ⟨5, "image_update", "i1"⟩, ⟨6, "menu_data", "m3"⟩,
    ⟨7, "done", "d"⟩]

/-- Witness for claim C5: reconnecting after sequence 3 of 7 replays
exactly events 4 to 7. -/
theorem replay_exact_witness :
    (exLog.map (·.seq) = List.range' 1 7 ∧ 3 ≤ 7) ∧
    (readEvents exLog 3 = exLog.drop 3 ∧
      (readEvents exLog 3).map (·.seq) = List.range' (3 + 1) (7 - 3) ∧
      ((readEvents exLog 3).map (·.seq)).Pairwise (· < ·) ∧
      ((readEvents exLog 3).map (·.seq)).Nodup) :=
  ⟨⟨by decide, by decide⟩, replay_exact exLog 7 3 (by decide) (by decide)⟩

/-! ## Job pipeline termination (claim C2, modelled from the spec) -/

/-- Modelled from the spec: `append(jobId, type, payload)` of the Event
Log assigns the next sequence number atomically per job (spec section
4.2); the Cloud Run pipeline and Event Log are not part of this
repository. -/
def appendEvent (log : List LogEvent) (etype payload : String) : List LogEvent :=
  log ++ [⟨log.length + 1, etype, payload⟩]

/-- Modelled from the spec: the outcome of processing one menu item —
resolved from the Knowledge Store, resolved by the model, or failed after
bounded retries (spec sections 4.4 and 4.6). -/
inductive ItemOutcome
  | cacheHit (payload : String)
  | modelResolved (payload : String)
  | modelFailed
deriving DecidableEq

/-- Modelled from the spec: the per-execution state tracked by the Budget
Controller — the job's event log so far, elapsed wall-clock time, and the
counts of resolved and failed items (spec section 4.4). -/
structure PipeState where
  log : List LogEvent
  elapsed : Nat
  resolvedCount : Nat
  failedCount : Nat
deriving DecidableEq

/-- Modelled from the spec: the enrichment loop: while the hard cap has
not expired, each item outcome consumes its wall-clock cost; a resolved
item (from cache or model) appends a `menu_data` snapshot event, a failed
item is recorded and the pipeline continues with the rest; once elapsed
time reaches the hard cap, no further items are processed (spec section
4.4). -/
def runItems (hardCap : Nat) : PipeState → List (Nat × ItemOutcome) → PipeState
  | st, [] => st
  | st, (cost, o) :: rest =>
      if hardCap ≤ st.elapsed then st
      else
        match o with
        | .cacheHit p =>
            runItems hardCap
              { log := appendEvent st.log "menu_data" p, elapsed := st.elapsed + cost,
                resolvedCount := st.resolvedCount + 1, failedCount := st.failedCount } rest
        | .modelResolved p =>
            runItems hardCap
              { log := appendEvent st.log "menu_data" p, elapsed := st.elapsed + cost,
                resolvedCount := st.resolvedCount + 1, failedCount := st.failedCount } rest
        | .modelFailed =>
            runItems hardCap
              { st with elapsed := st.elapsed + cost,
                        failedCount := st.failedCount + 1 } rest

/-- Modelled from the spec: a full pipeline execution: an initial `status`
event, the enrichment loop, a single `error` event when no item at all was
resolved, and — on every path — a terminal `done` event whose status is
`completed`, `partial` or `failed` (spec sections 4.4, 4.6 and 7). -/
def runPipeline (hardCap : Nat) (items : List (Nat × ItemOutcome)) : List LogEvent :=
  let st0 : PipeState := ⟨appendEvent [] "status" "extracting", 0, 0, 0⟩
  let st := runItems hardCap st0 items
  let log2 :=
    if st.resolvedCount = 0 then appendEvent st.log "error" "VLM_FAILED" else st.log
  appendEvent log2 "done"
    (if st.resolvedCount = 0 then "failed"
     else if st.resolvedCount = items.length then "completed" else "partial")

theorem filter_appendEvent (log : List LogEvent) (t p q : String) (h : (t == q) = false) :
    ((appendEvent log t p).filter fun e => e.etype == q) =
      log.filter fun e => e.etype == q := by
  unfold appendEvent
  rw [List.filter_append]
  simp [h]

theorem runItems_done_filter (hardCap : Nat) (items : List (Nat × ItemOutcome)) :
    ∀ st : PipeState,
      ((runItems hardCap st items).log.filter fun e => e.etype == "done") =
        st.log.filter fun e => e.etype == "done" := by
  induction items with
  | nil => intro st; rfl
  | cons it rest ih =>
      intro st
      rcases it with ⟨cost, o⟩
      unfold runItems
      by_cases hcap : hardCap ≤ st.elapsed
      · rw [if_pos hcap]
      · rw [if_neg hcap]
        cases o with
        | cacheHit p =>
            rw [ih]
            exact filter_appendEvent st.log "menu_data" p "done" (by decide)
        | modelResolved p =>
            rw [ih]
            exact filter_appendEvent st.log "menu_data" p "done" (by decide)
        | modelFailed => rw [ih]

theorem appendEvent_length (log : List LogEvent) (t p : String) :
    (appendEvent log t p).length = log.length + 1 := by
  simp [appendEvent]

theorem appendEvent_seq_le (log : List LogEvent) (t p : String)
    (h : ∀ e ∈ log, e.seq ≤ log.length) :
    ∀ e ∈ appendEvent log t p, e.seq ≤ (appendEvent log t p).length := by
  intro e he
  rw [appendEvent_length]
  unfold appendEvent at he
  rcases List.mem_append.mp he with h1 | h1
  · exact Nat.le_trans (h e h1) (Nat.le_succ _)
  · have he2 : e = ⟨log.length + 1, t, p⟩ := by simpa using h1
    subst he2
    exact Nat.le_refl _

theorem runItems_seq_le (hardCap : Nat) (items : List (Nat × ItemOutcome)) :
    ∀ st : PipeState, (∀ e ∈ st.log, e.seq ≤ st.log.length) →
      ∀ e ∈ (runItems hardCap st items).log,
        e.seq ≤ (runItems hardCap st items).log.length := by
  induction items with
  | nil => intro st h; exact h
  | cons it rest ih =>
      intro st h
      rcases it with ⟨cost, o⟩
      unfold runItems
      by_cases hcap : hardCap ≤ st.elapsed
      · rw [if_pos hcap]; exact h
      · rw [if_neg hcap]
        cases o with
        | cacheHit p => exact ih _ (appendEvent_seq_le st.log "menu_data" p h)
        | modelResolved p => exact ih _ (appendEvent_seq_le st.log "menu_data" p h)
        | modelFailed => exact ih _ h

/-- Claim C2: in the spec-modelled pipeline, every execution — on every
code path: all items resolved, partial results, total failure, or
hard-cap expiry — produces an Event Log containing exactly one `done`
event, and that event is the last event and carries the highest sequence
number of all the job's events; `runPipeline` is a total function, so
every execution eventually appends its `done`. -/
theorem pipeline_done_terminal (hardCap : Nat) (items : List (Nat × ItemOutcome)) :
    ((runPipeline hardCap items).filter fun e => e.etype == "done").length = 1 ∧
    (∃ e, (runPipeline hardCap items).getLast? = some e ∧ e.etype = "done" ∧
      ∀ e2 ∈ runPipeline hardCap items, e2.seq ≤ e.seq) := by
  have hbase0 : ((appendEvent [] "status" "extracting").filter
      fun e => e.etype == "done") = [] := by decide
  have hb0 : ∀ e ∈ appendEvent [] "status" "extracting",
      e.seq ≤ (appendEvent [] "status" "extracting").length := by decide
  set st := runItems hardCap ⟨appendEvent [] "status" "extracting", 0, 0, 0⟩ items with hst
  have hstfilter : (st.log.filter fun e => e.etype == "done") = [] := by
    rw [hst, runItems_done_filter]
    exact hbase0
  have hstle : ∀ e ∈ st.log, e.seq ≤ st.log.length := by
    rw [hst]
    exact runItems_seq_le hardCap items _ hb0
  set log2 :=
    if st.resolvedCount = 0 then appendEvent st.log "error" "VLM_FAILED" else st.log
    with hlog2
  have hl2filter : (log2.filter fun e => e.etype == "done") = [] := by
    rw [hlog2]
    by_cases hz : st.resolvedCount = 0
    · rw [if_pos hz, filter_appendEvent st.log "error" "VLM_FAILED" "done" (by decide)]
      exact hstfilter
    · rw [if_neg hz]
      exact hstfilter
  have hl2le : ∀ e ∈ log2, e.seq ≤ log2.length := by
    rw [hlog2]
    by_cases hz : st.resolvedCount = 0
    · rw [if_pos hz]
      exact appendEvent_seq_le st.log "error" "VLM_FAILED" hstle
    · rw [if_neg hz]
      exact hstle
  have hrun : runPipeline hardCap items = appendEvent log2 "done"
      (if st.resolvedCount = 0 then "failed"
       else if st.resolvedCount = items.length then "completed" else "partial") := rfl
  rw [hrun]
  constructor
  · unfold appendEvent
    rw [List.filter_append, hl2filter]
    simp
  · refine ⟨⟨log2.length + 1, "done",
        if st.resolvedCount = 0 then "failed"
        else if st.resolvedCount = items.length then "completed" else "partial"⟩,
      ?_, rfl, ?_⟩
    · unfold appendEvent
      exact List.getLast?_concat log2
    · intro e2 he2
      rcases List.mem_append.mp he2 with h1 | h1
      · exact Nat.le_trans (hl2le e2 h1) (Nat.le_succ _)
      · have he3 : e2 = ⟨log2.length + 1, "done",
            if st.resolvedCount = 0 then "failed"
            else if st.resolvedCount = items.length then "completed" else "partial"⟩ := by
          simpa using h1
        rw [he3]
